import Mathlib

/-!
Shallow embedding of src/Codigos/Extrator.py: an incremental FTP ingestion
controller that walks a year/yearmonth folder tree, downloads and extracts
7z archives, persists extracted csv/txt members, decodes them into tables
under an ordered delimiter/encoding fallback chain, and records fully
processed month folders in a durable ledger file.

External collaborators (ftplib, py7zr, pandas, shutil) are modelled as data:
a World value records, for each remote directory, archive and member, the
outcome every collaborator call would have (success, permission error,
fatal transport error, parse result).  The controller logic itself - the
try/except placement, the filters, the traversal order, the ledger checks
and commits, and the accumulation of results - is translated clause by
clause from the source.  Effects without observable influence on the
returned values (logging, temporary directories) are omitted.

Python exceptions that escape to the top-level handler (lines 209-212 of
the source) are modelled by an aborted flag on the run state: once set,
every remaining step is a no-op, and the accumulated state is what the
function returns, exactly as the top-level except/return does.
-/

namespace Extrator

/-! ### Character-list string helpers (kernel-reducible stand-ins) -/

/-- Lexicographic comparison of strings by code point, as Python compares
strings.  Stated over the character lists so that it evaluates. -/
def strLt (a b : String) : Bool := decide (a.toList < b.toList)

/-- Checks that `pat` is an initial segment of `s`. -/
def leadsWith : List Char → List Char → Bool
  | [], _ => true
  | _ :: _, [] => false
  | a :: as, b :: bs => (a == b) && leadsWith as bs

/-- Python `s.startswith(pat)`. -/
def startsWithS (s pat : String) : Bool := leadsWith pat.toList s.toList

/-- Python `s.endswith(pat)`. -/
def endsWithS (s pat : String) : Bool := leadsWith pat.toList.reverse s.toList.reverse

/-- ASCII lower-casing of one character, the fragment of Python `str.lower`
exercised by the filename tests of the source. -/
def lowerChar (c : Char) : Char :=
  if 'A' ≤ c && c ≤ 'Z' then Char.ofNat (c.toNat + 32) else c

/-- Python `s.lower()`. -/
def toLowerS (s : String) : String := ⟨s.toList.map lowerChar⟩

/-- Python `s.isdigit()` on ASCII data: nonempty and all decimal digits. -/
def isdigitS (s : String) : Bool := !(s.toList.isEmpty) && s.toList.all Char.isDigit

/-- Insertion step for ascending sort. -/
def insertSorted (x : String) : List String → List String
  | [] => [x]
  | y :: ys => if strLt x y then x :: y :: ys else y :: insertSorted x ys

/-- Python `sorted` on a list of strings: ascending lexicographic order. -/
def sortStr (l : List String) : List String := l.foldr insertSorted []

/-- Python `os.path.splitext`: split at the last dot, provided some earlier
character of the name is not a dot; otherwise the extension is empty. -/
def splitext (p : String) : String × String :=
  match ((List.range p.toList.length).filter
      (fun i => p.toList.getD i ' ' == '.')).getLast? with
  | none => (p, "")
  | some i =>
      if (p.toList.take i).any (fun c => c != '.') then
        (⟨p.toList.take i⟩, ⟨p.toList.drop i⟩)
      else (p, "")

/-- Python `os.path.join` for the two-argument uses in the source. -/
def pathJoin (a b : String) : String :=
  if startsWithS b "/" then b
  else if a = "" then b
  else if endsWithS a "/" then a ++ b
  else a ++ "/" ++ b

/-! ### Data model of the remote world and collaborator outcomes -/

/-- Tables produced by the pandas collaborator are opaque to the controller;
an identifier stands for the parsed DataFrame. -/
abbrev Table := Nat

/-- Outcome of one ftplib call that the source wraps in a handler for
`ftplib.error_perm` only: `permErr` is caught locally, `fatal` is any other
transport error and propagates to the top-level handler. -/
inductive FtpRes where
  | ok
  | permErr
  | fatal
deriving DecidableEq

/-- One file found inside an extracted archive (lines 150-156 of the source).
`copyOk` is the outcome of the `shutil.copy2` call in `save_extracted_file`;
`parse` gives the outcome of `pd.read_csv` for a delimiter/encoding pair:
`some t` when the parser returns a DataFrame `t` under the skip-bad-lines
policy, `none` when it raises. -/
structure MemberW where
  name : String
  copyOk : Bool
  parse : String × String → Option Table

/-- One entry of a month directory listing.  `fetchOk` is the outcome of
`ftp.retrbinary` (line 135); `extractOut` is the outcome of the py7zr
open/extractall block: `none` when it raises, `some ms` when it produces
the member files `ms` in `os.listdir` order. -/
structure ArchiveW where
  name : String
  fetchOk : Bool
  extractOut : Option (List MemberW)

/-- One entry of a year directory listing.  `cwd` is the outcome of
`ftp.cwd(month)` (line 119), `nlstOk` the outcome of `ftp.nlst()` in the
month directory (false models `ftplib.error_perm`), `cwdUpOk` the outcome
of the unguarded cwd-up call at line 200. -/
structure MonthW where
  name : String
  cwd : FtpRes
  nlstOk : Bool
  entries : List ArchiveW
  cwdUpOk : Bool

/-- One entry of the base directory listing, with the outcomes of
`ftp.cwd(year)` (line 100), the year-level `ftp.nlst()`, and the
unguarded cwd-up call at line 207. -/
structure YearW where
  name : String
  cwd : FtpRes
  nlstOk : Bool
  months : List MonthW
  cwdUpOk : Bool

/-- The whole remote session as data: outcomes of `ftplib.FTP(host)`,
`ftp.login()`, `ftp.cwd(base_ftp_path)`, the base `ftp.nlst()`, and the
base directory tree. -/
structure World where
  connectOk : Bool
  loginOk : Bool
  cwdBaseOk : Bool
  nlstOk : Bool
  years : List YearW

/-- Observable calls of one run, in order: a `fetch` is the retrbinary
download of one archive, an `extract` the py7zr extraction call, an
`assign` one assignment into the all_dataframes dictionary, `exitMonth`
the successful return to the year directory at line 200, and `commit`
the append of a folder key to the ledger file at lines 202-204.  The
`fetch`, `extract`, `exitMonth` and `commit` events carry the folder key
year/month of the enclosing month directory. -/
inductive Event where
  | fetch (key archive : String)
  | extract (key archive : String)
  | assign (tableKey : String)
  | exitMonth (key : String)
  | commit (key : String)
deriving DecidableEq

/-- State threaded through one call of `extract_from_ftp_with_7z`:
the chronological list of dictionary assignments (`tables`), the
saved-files list, the in-memory processed_folders set (as a list), the
lines of the ledger file on disk, the event trace, and whether an
uncaught exception is propagating to the top-level handler. -/
structure RunState where
  tables : List (String × Table)
  saved : List String
  processed : List String
  ledgerFile : List String
  events : List Event
  aborted : Bool
deriving DecidableEq

/-- Python-dict view of the chronological assignment list: the value of a
key is the one assigned last. -/
def dictLookup (l : List (String × Table)) (k : String) : Option Table :=
  (l.reverse.find? (fun p => p.1 == k)).map (·.2)

/-! ### The source functions -/

/-- Lines 14-20: `ftp.nlst()` wrapped so that a permission error degrades
to an empty listing.  The transport outcome is success (flag true) with
the child names, or a permission error. -/
def get_ftp_file_list (nlstOk : Bool) (names : List String) : List String :=
  if nlstOk then names else []

/-- Lines 22-52: build the permanent file name month_base.ext, copy the
extracted file there, and return the permanent path, or `none` when the
copy raises. -/
def save_extracted_file (copyOk : Bool) (file_name month_folder output_dir : String) :
    Option String :=
  if copyOk then
    some (pathJoin output_dir
      (month_folder ++ "_" ++ (splitext file_name).1 ++ (splitext file_name).2))
  else none

/-- Lines 172-192: the ordered pd.read_csv fallback chain, delimiter and
encoding exactly as in the source: semicolon with latin1, then comma with
utf-8, then semicolon with cp1252; the first attempt that does not raise
wins. -/
def read_csv_chain (parse : String × String → Option Table) : Option Table :=
  match parse (";", "latin1") with
  | some df => some df
  | none =>
      match parse (",", "utf-8") with
      | some df => some df
      | none => parse (";", "cp1252")

/-- Ordered attempt list of the fallback chain, for stating that the chain
is exactly a first-success scan of this list. -/
def read_csv_attempts : List (String × String) :=
  [(";", "latin1"), (",", "utf-8"), (";", "cp1252")]

/-- First-success scan of an attempt list (specification-style companion of
`read_csv_chain`). -/
def firstSuccess (parse : String × String → Option Table) :
    List (String × String) → Option Table
  | [] => none
  | a :: rest =>
      match parse a with
      | some df => some df
      | none => firstSuccess parse rest

/-- Line 155: the member qualifies when its lowered name ends in .csv or
.txt. -/
def qualifies (name : String) : Bool :=
  endsWithS (toLowerS name) ".csv" || endsWithS (toLowerS name) ".txt"

/-- Lines 154-192: processing of one extracted member: save it to the
permanent store; only when the save succeeded, append it to saved_files and
run the read_csv fallback chain; a chain success assigns the table under
the key month_name into the dictionary; a chain failure leaves the file in
place and moves on. -/
def processMember (output_dir month_folder : String) (s : RunState) (m : MemberW) :
    RunState :=
  if qualifies m.name then
    match save_extracted_file m.copyOk m.name month_folder output_dir with
    | some permanent_file_path =>
        match read_csv_chain m.parse with
        | some df =>
            { s with
              saved := s.saved ++ [permanent_file_path],
              tables := s.tables ++ [(month_folder ++ "_" ++ m.name, df)],
              events := s.events ++ [Event.assign (month_folder ++ "_" ++ m.name)] }
        | none => { s with saved := s.saved ++ [permanent_file_path] }
    | none => s
  else s

/-- Lines 128-197: one 7z archive.  The retrbinary download (line 135) has
no surrounding handler, so its failure propagates to the top-level handler
and aborts the remaining traversal.  The extraction block (lines 139-195)
is guarded by a per-archive except: its failure skips only this archive. -/
def processArchive (key month_folder output_dir : String) (s : RunState) (a : ArchiveW) :
    RunState :=
  if s.aborted then s
  else if a.fetchOk then
    match a.extractOut with
    | none =>
        { s with events := s.events ++ [Event.fetch key a.name, Event.extract key a.name] }
    | some members =>
        members.foldl (processMember output_dir month_folder)
          { s with events := s.events ++ [Event.fetch key a.name, Event.extract key a.name] }
  else { s with events := s.events ++ [Event.fetch key a.name], aborted := true }

/-- Lines 124-197: the archive loop of one month directory: the listing
(empty under a permission error) is filtered to names ending in .7z and
each is downloaded and extracted in listing order. -/
def monthArchFold (key month_folder output_dir : String) (s : RunState) (mo : MonthW) :
    RunState :=
  (if mo.nlstOk then
      mo.entries.filter (fun a => endsWithS (toLowerS a.name) ".7z")
    else []).foldl (processArchive key month_folder output_dir) s

/-- Lines 199-205: after the archive loop the unguarded cwd-up call must
succeed, and only then is the key added to processed_folders and appended
to the ledger file. -/
def monthCommit (key : String) (cwdUpOk : Bool) (s1 : RunState) : RunState :=
  if s1.aborted then s1
  else if cwdUpOk then
    { s1 with
      events := s1.events ++ [Event.exitMonth key, Event.commit key],
      processed := s1.processed ++ [key],
      ledgerFile := s1.ledgerFile ++ [key] }
  else { s1 with aborted := true }

/-- Lines 110-205: one month directory.  The ledger check (line 113) comes
before any cwd, download or extraction; cwd failure with a permission
error skips the month. -/
def processMonth (output_dir year : String) (s : RunState) (mo : MonthW) : RunState :=
  if s.aborted then s
  else if s.processed.contains (year ++ "/" ++ mo.name) then s
  else
    match mo.cwd with
    | FtpRes.permErr => s
    | FtpRes.fatal => { s with aborted := true }
    | FtpRes.ok =>
        monthCommit (year ++ "/" ++ mo.name) mo.cwdUpOk
          (monthArchFold (year ++ "/" ++ mo.name) mo.name output_dir s mo)

/-- Lines 107-110: the month filter over the year-level listing: six
characters, all digits, starting with the year string. -/
def month_dirs_filter (year : String) (ds : List String) : List String :=
  ds.filter (fun d => isdigitS d && (d.toList.length == 6) && startsWithS d year)

/-- Lines 110-205: the month loop of one year: filtered month names are
visited in sorted order. -/
def yearMonthsFold (output_dir : String) (s : RunState) (y : YearW) : RunState :=
  (sortStr (month_dirs_filter y.name
      (get_ftp_file_list y.nlstOk (y.months.map (·.name))))).foldl
    (fun s' mname =>
      match y.months.find? (fun mo => mo.name == mname) with
      | some mo => processMonth output_dir y.name s' mo
      | none => s') s

/-- Line 207: the unguarded cwd-up call back to the base directory. -/
def yearExit (cwdUpOk : Bool) (s1 : RunState) : RunState :=
  if s1.aborted then s1
  else if cwdUpOk then s1
  else { s1 with aborted := true }

/-- Lines 98-207: one year directory.  cwd failure with a permission error
skips the year. -/
def processYear (output_dir : String) (s : RunState) (y : YearW) : RunState :=
  if s.aborted then s
  else
    match y.cwd with
    | FtpRes.permErr => s
    | FtpRes.fatal => { s with aborted := true }
    | FtpRes.ok => yearExit y.cwdUpOk (yearMonthsFold output_dir s y)

/-- Line 95: the year filter: four characters, all digits, and member of
the hard-coded allow-list of source line 95. -/
def year_dirs_filter (ds : List String) : List String :=
  ds.filter (fun d =>
    isdigitS d && (d.toList.length == 4) && (d == "2024" || d == "2025"))

/-- Lines 94-207: the year loop: filtered year names visited in sorted
order. -/
def runYears (output_dir : String) (s : RunState) (w : World) : RunState :=
  (sortStr (year_dirs_filter
      (get_ftp_file_list w.nlstOk (w.years.map (·.name))))).foldl
    (fun s' yname =>
      match w.years.find? (fun y => y.name == yname) with
      | some y => processYear output_dir s' y
      | none => s') s

/-- Initial run state: lines 69-78 load the ledger file into the
processed_folders set and start with empty dictionaries and lists. -/
def initState (ledger0 : List String) : RunState :=
  { tables := []
    saved := []
    processed := ledger0
    ledgerFile := ledger0
    events := []
    aborted := false }

/-- Lines 54-214: the whole controller.  `ledger0` is the list of lines of
the processed-folders file at the start of the run.  A connect or login
failure raises into the top-level handler before anything accumulates; a
base-path cwd failure returns empty results at line 92; otherwise the year
listing is filtered, sorted and walked.  The returned state carries the
final all_dataframes assignment log, saved_files list, ledger file lines
and event trace. -/
def extract_from_ftp_with_7z (w : World) (ledger0 : List String) (output_dir : String) :
    RunState :=
  if !w.connectOk then initState ledger0
  else if !w.loginOk then initState ledger0
  else if !w.cwdBaseOk then initState ledger0
  else runYears output_dir (initState ledger0) w

/-! ### Generic list and fold helpers -/

/-- Locating a marked element of an appended list in its right part, when
it does not occur in the left part. -/
theorem split_in_right {α : Type} {x : α} {l₁ l₂ pre post : List α}
    (h : l₁ ++ l₂ = pre ++ x :: post) (hx : x ∉ l₁) :
    ∃ mid, l₂ = mid ++ x :: post ∧ pre = l₁ ++ mid := by
  rcases List.append_eq_append_iff.mp h with ⟨a', ha1, ha2⟩ | ⟨c', hc1, hc2⟩
  · exact ⟨a', ha2, ha1⟩
  · cases c' with
    | nil =>
        refine ⟨[], ?_, ?_⟩
        · simpa using hc2.symm
        · simpa using hc1.symm
    | cons y ys =>
        rw [List.cons_append] at hc2
        injection hc2 with h1 h2
        subst h1
        rw [hc1] at hx
        simp at hx

/-- Locating a marked element of an appended list in its left part, when
it does not occur in the right part. -/
theorem split_in_left {α : Type} {x : α} {l₁ l₂ pre post : List α}
    (h : l₁ ++ l₂ = pre ++ x :: post) (hx : x ∉ l₂) :
    ∃ mid, l₁ = pre ++ x :: mid ∧ post = mid ++ l₂ := by
  rcases List.append_eq_append_iff.mp h with ⟨a', ha1, ha2⟩ | ⟨c', hc1, hc2⟩
  · rw [ha2] at hx
    simp at hx
  · cases c' with
    | nil =>
        rw [List.nil_append] at hc2
        rw [← hc2] at hx
        simp at hx
    | cons y ys =>
        rw [List.cons_append] at hc2
        injection hc2 with h1 h2
        subst h1
        exact ⟨ys, by simpa using hc1, h2⟩

/-- Folding a step that moves along a reflexive transitive relation stays in
the relation. -/
theorem foldl_rel {σ α : Type} (R : σ → σ → Prop) (hrefl : ∀ s, R s s)
    (htrans : ∀ a b c, R a b → R b c → R a c)
    (f : σ → α → σ) (hf : ∀ s a, R s (f s a)) :
    ∀ (l : List α) (s : σ), R s (l.foldl f s) := by
  intro l
  induction l with
  | nil => intro s; exact hrefl s
  | cons a as ih => intro s; exact htrans _ _ _ (hf s a) (ih (f s a))

/-- Folding a step that preserves a predicate preserves the predicate, with
the step hypothesis available only for list elements. -/
theorem foldl_pres {σ α : Type} (P : σ → Prop) (Q : α → Prop) (f : σ → α → σ)
    (hf : ∀ s a, Q a → P s → P (f s a)) :
    ∀ (l : List α), (∀ a ∈ l, Q a) → ∀ s : σ, P s → P (l.foldl f s) := by
  intro l
  induction l with
  | nil => intro _ s hs; exact hs
  | cons a as ih =>
      intro hq s hs
      exact ih (fun b hb => hq b (List.mem_cons_of_mem a hb))
        (f s a) (hf s a (hq a (List.mem_cons_self a as)) hs)

/-! ### Event classifiers -/

/-- Events that an archive-level step can emit: downloads and extractions
of the enclosing key, and dictionary assignments. -/
def archEvent (k : String) : Event → Bool
  | Event.fetch k' _ => k' == k
  | Event.extract k' _ => k' == k
  | Event.assign _ => true
  | _ => false

/-- Dictionary-assignment events. -/
def isAssign : Event → Bool
  | Event.assign _ => true
  | _ => false

/-- Events that download or extract an archive under the folder key `k`. -/
def touches (k : String) : Event → Bool
  | Event.fetch k' _ => k' == k
  | Event.extract k' _ => k' == k
  | _ => false

/-- Key committed by a ledger-commit event. -/
def commitKeyOf : Event → Option String
  | Event.commit k => some k
  | _ => none

theorem archEvent_of_isAssign {e : Event} (h : isAssign e = true) (k : String) :
    archEvent k e = true := by
  cases e <;> simp [isAssign] at h <;> simp [archEvent]

theorem touches_false_of_isAssign {e : Event} (h : isAssign e = true) (k : String) :
    touches k e = false := by
  cases e <;> simp [isAssign] at h <;> simp [touches]

theorem commitKeyOf_of_archEvent {k : String} {e : Event} (h : archEvent k e = true) :
    commitKeyOf e = none := by
  cases e <;> simp [archEvent] at h <;> simp [commitKeyOf]

theorem ne_commit_of_archEvent {k : String} {e : Event} (h : archEvent k e = true)
    (k' : String) : e ≠ Event.commit k' := by
  cases e <;> simp [archEvent] at h <;> simp

theorem touches_of_archEvent {key k : String} (hne : key ≠ k) {e : Event}
    (h : archEvent key e = true) : touches k e = false := by
  cases e with
  | fetch k' a =>
      simp [archEvent] at h
      simp [touches, h, hne]
  | extract k' a =>
      simp [archEvent] at h
      simp [touches, h, hne]
  | assign tk => simp [touches]
  | exitMonth k' => simp [archEvent] at h
  | commit k' => simp [archEvent] at h

/-! ### Delta relations between run states -/

/-- What one member step can change: it appends to tables, saved files and
events (assignments only), and leaves the ledger, the processed set and the
abort flag alone. -/
def MemberDelta (s s' : RunState) : Prop :=
  s'.processed = s.processed ∧ s'.ledgerFile = s.ledgerFile ∧ s'.aborted = s.aborted ∧
  (∃ d, s'.tables = s.tables ++ d) ∧ (∃ d, s'.saved = s.saved ++ d) ∧
  (∃ d, s'.events = s.events ++ d ∧ ∀ e ∈ d, isAssign e = true)

theorem memberDelta_refl (s : RunState) : MemberDelta s s :=
  ⟨rfl, rfl, rfl, ⟨[], by simp⟩, ⟨[], by simp⟩, ⟨[], by simp⟩⟩

theorem memberDelta_trans {a b c : RunState} (h1 : MemberDelta a b)
    (h2 : MemberDelta b c) : MemberDelta a c := by
  obtain ⟨p1, l1, ab1, ⟨t1, ht1⟩, ⟨v1, hv1⟩, ⟨e1, he1, ha1⟩⟩ := h1
  obtain ⟨p2, l2, ab2, ⟨t2, ht2⟩, ⟨v2, hv2⟩, ⟨e2, he2, ha2⟩⟩ := h2
  refine ⟨p2.trans p1, l2.trans l1, ab2.trans ab1, ⟨t1 ++ t2, ?_⟩, ⟨v1 ++ v2, ?_⟩,
    ⟨e1 ++ e2, ?_, ?_⟩⟩
  · rw [ht2, ht1, List.append_assoc]
  · rw [hv2, hv1, List.append_assoc]
  · rw [he2, he1, List.append_assoc]
  · intro e he
    rcases List.mem_append.mp he with h | h
    · exact ha1 e h
    · exact ha2 e h

theorem processMember_delta (od mf : String) (s : RunState) (m : MemberW) :
    MemberDelta s (processMember od mf s m) := by
  unfold processMember
  split
  · split
    · split
      · exact ⟨rfl, rfl, rfl, ⟨_, rfl⟩, ⟨_, rfl⟩, ⟨_, rfl, by simp [isAssign]⟩⟩
      · exact ⟨rfl, rfl, rfl, ⟨[], by simp⟩, ⟨_, rfl⟩, ⟨[], by simp⟩⟩
    · exact memberDelta_refl s
  · exact memberDelta_refl s

theorem member_fold_delta (od mf : String) (ms : List MemberW) (s : RunState) :
    MemberDelta s (ms.foldl (processMember od mf) s) :=
  foldl_rel MemberDelta memberDelta_refl (fun _ _ _ => memberDelta_trans)
    (processMember od mf) (fun s' m => processMember_delta od mf s' m) ms s

/-- What one archive step can change: it appends archive-level events of its
own key, appends to tables and saved files, possibly aborts, and leaves the
ledger and the processed set alone; an already-aborted state is frozen. -/
def ArchDelta (k : String) (s s' : RunState) : Prop :=
  s'.processed = s.processed ∧ s'.ledgerFile = s.ledgerFile ∧
  (s.aborted = true → s' = s) ∧
  (∃ d, s'.tables = s.tables ++ d) ∧ (∃ d, s'.saved = s.saved ++ d) ∧
  (∃ d, s'.events = s.events ++ d ∧ ∀ e ∈ d, archEvent k e = true)

theorem archDelta_refl (k : String) (s : RunState) : ArchDelta k s s :=
  ⟨rfl, rfl, fun _ => rfl, ⟨[], by simp⟩, ⟨[], by simp⟩, ⟨[], by simp⟩⟩

theorem archDelta_trans {k : String} {a b c : RunState} (h1 : ArchDelta k a b)
    (h2 : ArchDelta k b c) : ArchDelta k a c := by
  obtain ⟨p1, l1, ab1, ⟨t1, ht1⟩, ⟨v1, hv1⟩, ⟨e1, he1, ha1⟩⟩ := h1
  obtain ⟨p2, l2, ab2, ⟨t2, ht2⟩, ⟨v2, hv2⟩, ⟨e2, he2, ha2⟩⟩ := h2
  refine ⟨p2.trans p1, l2.trans l1, ?_, ⟨t1 ++ t2, ?_⟩, ⟨v1 ++ v2, ?_⟩,
    ⟨e1 ++ e2, ?_, ?_⟩⟩
  · intro hab
    have hb := ab1 hab
    have hb2 : b.aborted = true := by rw [hb]; exact hab
    exact (ab2 hb2).trans hb
  · rw [ht2, ht1, List.append_assoc]
  · rw [hv2, hv1, List.append_assoc]
  · rw [he2, he1, List.append_assoc]
  · intro e he
    rcases List.mem_append.mp he with h | h
    · exact ha1 e h
    · exact ha2 e h

theorem archDelta_of_memberDelta {k : String} {a b : RunState} (hab : a.aborted = false)
    (h : MemberDelta a b) : ArchDelta k a b := by
  obtain ⟨p1, l1, ab1, ht, hv, ⟨e1, he1, ha1⟩⟩ := h
  refine ⟨p1, l1, ?_, ht, hv, ⟨e1, he1, fun e he => archEvent_of_isAssign (ha1 e he) k⟩⟩
  intro habs
  rw [habs] at hab
  exact absurd hab (by simp)

theorem processArchive_delta (k mf od : String) (s : RunState) (a : ArchiveW) :
    ArchDelta k s (processArchive k mf od s a) := by
  unfold processArchive
  split
  · exact archDelta_refl k s
  · rename_i hab
    split
    · split
      · exact ⟨rfl, rfl, fun h => absurd h hab, ⟨[], by simp⟩, ⟨[], by simp⟩,
          ⟨[Event.fetch k a.name, Event.extract k a.name], rfl, by simp [archEvent]⟩⟩
      · rename_i members hmem
        refine archDelta_trans ?_
          (archDelta_of_memberDelta (by simpa using hab) (member_fold_delta od mf members _))
        exact ⟨rfl, rfl, fun h => absurd h hab, ⟨[], by simp⟩, ⟨[], by simp⟩,
          ⟨[Event.fetch k a.name, Event.extract k a.name], rfl, by simp [archEvent]⟩⟩
    · exact ⟨rfl, rfl, fun h => absurd h hab, ⟨[], by simp⟩, ⟨[], by simp⟩,
        ⟨[Event.fetch k a.name], rfl, by simp [archEvent]⟩⟩

theorem arch_fold_delta (k mf od : String) (as : List ArchiveW) (s : RunState) :
    ArchDelta k s (as.foldl (processArchive k mf od) s) :=
  foldl_rel (ArchDelta k) (archDelta_refl k) (fun _ _ _ => archDelta_trans)
    (processArchive k mf od) (fun s' a => processArchive_delta k mf od s' a) as s

theorem monthArchFold_delta (k mf od : String) (s : RunState) (mo : MonthW) :
    ArchDelta k s (monthArchFold k mf od s mo) :=
  arch_fold_delta k mf od _ s

/-- What a whole month or year step can change: every accumulating field is
append-only and an already-aborted state is frozen. -/
def StateDelta (s s' : RunState) : Prop :=
  (∃ d, s'.processed = s.processed ++ d) ∧
  (∃ d, s'.ledgerFile = s.ledgerFile ++ d) ∧
  (s.aborted = true → s' = s) ∧
  (∃ d, s'.tables = s.tables ++ d) ∧ (∃ d, s'.saved = s.saved ++ d) ∧
  (∃ d, s'.events = s.events ++ d)

theorem stateDelta_refl (s : RunState) : StateDelta s s :=
  ⟨⟨[], by simp⟩, ⟨[], by simp⟩, fun _ => rfl, ⟨[], by simp⟩, ⟨[], by simp⟩,
    ⟨[], by simp⟩⟩

theorem stateDelta_trans {a b c : RunState} (h1 : StateDelta a b)
    (h2 : StateDelta b c) : StateDelta a c := by
  obtain ⟨⟨p1, hp1⟩, ⟨l1, hl1⟩, ab1, ⟨t1, ht1⟩, ⟨v1, hv1⟩, ⟨e1, he1⟩⟩ := h1
  obtain ⟨⟨p2, hp2⟩, ⟨l2, hl2⟩, ab2, ⟨t2, ht2⟩, ⟨v2, hv2⟩, ⟨e2, he2⟩⟩ := h2
  refine ⟨⟨p1 ++ p2, ?_⟩, ⟨l1 ++ l2, ?_⟩, ?_, ⟨t1 ++ t2, ?_⟩, ⟨v1 ++ v2, ?_⟩,
    ⟨e1 ++ e2, ?_⟩⟩
  · rw [hp2, hp1, List.append_assoc]
  · rw [hl2, hl1, List.append_assoc]
  · intro hab
    have hb := ab1 hab
    have hb2 : b.aborted = true := by rw [hb]; exact hab
    exact (ab2 hb2).trans hb
  · rw [ht2, ht1, List.append_assoc]
  · rw [hv2, hv1, List.append_assoc]
  · rw [he2, he1, List.append_assoc]

theorem stateDelta_of_archDelta {k : String} {a b : RunState} (h : ArchDelta k a b) :
    StateDelta a b := by
  obtain ⟨p1, l1, ab1, ht, hv, ⟨e1, he1, _⟩⟩ := h
  exact ⟨⟨[], by simp [p1]⟩, ⟨[], by simp [l1]⟩, ab1, ht, hv, ⟨e1, he1⟩⟩

theorem monthCommit_delta (k : String) (up : Bool) (s1 : RunState) :
    StateDelta s1 (monthCommit k up s1) := by
  unfold monthCommit
  split
  · exact stateDelta_refl s1
  · rename_i hab
    split
    · exact ⟨⟨[k], rfl⟩, ⟨[k], rfl⟩, fun h => absurd h hab, ⟨[], by simp⟩,
        ⟨[], by simp⟩, ⟨[Event.exitMonth k, Event.commit k], rfl⟩⟩
    · exact ⟨⟨[], by simp⟩, ⟨[], by simp⟩, fun h => absurd h hab, ⟨[], by simp⟩,
        ⟨[], by simp⟩, ⟨[], by simp⟩⟩

theorem processMonth_delta (od y : String) (s : RunState) (mo : MonthW) :
    StateDelta s (processMonth od y s mo) := by
  unfold processMonth
  split
  · exact stateDelta_refl s
  · rename_i hab
    split
    · exact stateDelta_refl s
    · split
      · exact stateDelta_refl s
      · exact ⟨⟨[], by simp⟩, ⟨[], by simp⟩, fun h => absurd h hab, ⟨[], by simp⟩,
          ⟨[], by simp⟩, ⟨[], by simp⟩⟩
      · exact stateDelta_trans
          (stateDelta_of_archDelta (monthArchFold_delta (y ++ "/" ++ mo.name) mo.name od s mo))
          (monthCommit_delta (y ++ "/" ++ mo.name) mo.cwdUpOk _)

theorem yearExit_delta (up : Bool) (s1 : RunState) : StateDelta s1 (yearExit up s1) := by
  unfold yearExit
  split
  · exact stateDelta_refl s1
  · rename_i hab
    split
    · exact stateDelta_refl s1
    · exact ⟨⟨[], by simp⟩, ⟨[], by simp⟩, fun h => absurd h hab, ⟨[], by simp⟩,
        ⟨[], by simp⟩, ⟨[], by simp⟩⟩

theorem yearMonthsFold_delta (od : String) (s : RunState) (y : YearW) :
    StateDelta s (yearMonthsFold od s y) := by
  refine foldl_rel StateDelta stateDelta_refl (fun _ _ _ => stateDelta_trans) _ ?_ _ s
  intro s' mname
  cases h : y.months.find? (fun mo => mo.name == mname) with
  | none => simp only [h]; exact stateDelta_refl s'
  | some mo => simp only [h]; exact processMonth_delta od y.name s' mo

theorem processYear_delta (od : String) (s : RunState) (y : YearW) :
    StateDelta s (processYear od s y) := by
  unfold processYear
  split
  · exact stateDelta_refl s
  · rename_i hab
    split
    · exact stateDelta_refl s
    · exact ⟨⟨[], by simp⟩, ⟨[], by simp⟩, fun h => absurd h hab, ⟨[], by simp⟩,
        ⟨[], by simp⟩, ⟨[], by simp⟩⟩
    · exact stateDelta_trans (yearMonthsFold_delta od s y)
        (yearExit_delta y.cwdUpOk _)

theorem runYears_delta (od : String) (s : RunState) (w : World) :
    StateDelta s (runYears od s w) := by
  refine foldl_rel StateDelta stateDelta_refl (fun _ _ _ => stateDelta_trans) _ ?_ _ s
  intro s' yname
  cases h : w.years.find? (fun y => y.name == yname) with
  | none => simp only [h]; exact stateDelta_refl s'
  | some y => simp only [h]; exact processYear_delta od s' y

theorem run_delta (w : World) (ledger0 : List String) (od : String) :
    StateDelta (initState ledger0) (extract_from_ftp_with_7z w ledger0 od) := by
  unfold extract_from_ftp_with_7z
  split
  · exact stateDelta_refl _
  · split
    · exact stateDelta_refl _
    · split
      · exact stateDelta_refl _
      · exact runYears_delta od (initState ledger0) w

/-! ### Commit-ordering invariant -/

/-- Every ledger commit of the key `k` in a trace is preceded by the walk
out of the month directory of `k`, and is followed by no further download,
extraction or commit under `k`. -/
def kOrdered (k : String) (es : List Event) : Prop :=
  ∀ pre post, es = pre ++ Event.commit k :: post →
    Event.exitMonth k ∈ pre ∧ ∀ e ∈ post, touches k e = false ∧ e ≠ Event.commit k

theorem kOrdered_of_not_mem {k : String} {es : List Event}
    (h : Event.commit k ∉ es) : kOrdered k es := by
  intro pre post hsplit
  exact absurd (hsplit ▸ List.mem_append_right pre (List.mem_cons_self _ _)) h

theorem kOrdered_append {k : String} {es d : List Event} (h : kOrdered k es)
    (hd : ∀ e ∈ d, touches k e = false ∧ e ≠ Event.commit k) :
    kOrdered k (es ++ d) := by
  intro pre post hsplit
  have hnotin : Event.commit k ∉ d := fun hmem => (hd _ hmem).2 rfl
  obtain ⟨mid, hes, hpost⟩ := split_in_left hsplit hnotin
  obtain ⟨hexit, hrest⟩ := h pre mid hes
  refine ⟨hexit, ?_⟩
  intro e he
  rw [hpost] at he
  rcases List.mem_append.mp he with h1 | h1
  · exact hrest e h1
  · exact hd e h1

theorem kOrdered_snoc_commit {k : String} {l : List Event}
    (hno : Event.commit k ∉ l) (hexit : Event.exitMonth k ∈ l) :
    kOrdered k (l ++ [Event.commit k]) := by
  intro pre post hsplit
  obtain ⟨mid, hl2, hpre⟩ := split_in_right hsplit hno
  cases mid with
  | cons a as =>
      exfalso
      have hlen := congrArg List.length hl2
      simp [List.length_append] at hlen
  | nil =>
      rw [List.nil_append] at hl2
      have hpost : post = [] := by
        have := congrArg List.length hl2
        simpa using this.symm
      subst hpost
      refine ⟨?_, by simp⟩
      rw [hpre]
      simpa using hexit

/-- The run invariant behind claims about the commit point: a commit of `k`
recorded in the trace implies `k` is in the processed set, and the trace is
commit-ordered for `k`. -/
def JInv (k : String) (s : RunState) : Prop :=
  (Event.commit k ∈ s.events → k ∈ s.processed) ∧ kOrdered k s.events

/-- The run invariant behind the resume claims: a key already in the
processed set is never downloaded, extracted or committed again. -/
def NoTouch (k : String) (s : RunState) : Prop :=
  k ∈ s.processed ∧ ∀ e ∈ s.events, touches k e = false ∧ e ≠ Event.commit k

/-- The ledger file is exactly the loaded lines followed by the committed
keys of the trace, in order. -/
def LInv (l0 : List String) (s : RunState) : Prop :=
  s.ledgerFile = l0 ++ s.events.filterMap commitKeyOf

theorem benign_of_archEvent {key k : String} (hne : key ≠ k) {e : Event}
    (h : archEvent key e = true) : touches k e = false ∧ e ≠ Event.commit k :=
  ⟨touches_of_archEvent hne h, ne_commit_of_archEvent h k⟩

theorem monthStep_J {k key : String} (up : Bool) {s s1 : RunState}
    (hJ : JInv k s) (hkey : key ∉ s.processed) (hAD : ArchDelta key s s1) :
    JInv k (monthCommit key up s1) := by
  obtain ⟨hp, hl, hab, ht, hv, ⟨d, hd, hall⟩⟩ := hAD
  by_cases hkk : key = k
  · subst hkk
    have hnoes : Event.commit key ∉ s.events := fun hmem => hkey (hJ.1 hmem)
    have hnod : Event.commit key ∉ d := by
      intro hmem
      exact ne_commit_of_archEvent (hall _ hmem) key rfl
    have hnos1 : Event.commit key ∉ s1.events := by
      rw [hd]
      intro hmem
      rcases List.mem_append.mp hmem with h1 | h1
      · exact hnoes h1
      · exact hnod h1
    unfold monthCommit
    split
    · exact ⟨fun hmem => absurd hmem hnos1, kOrdered_of_not_mem hnos1⟩
    · split
      · constructor
        · intro _
          exact List.mem_append_right _ (List.mem_cons_self _ _)
        · show kOrdered key (s1.events ++ [Event.exitMonth key, Event.commit key])
          have heq : s1.events ++ [Event.exitMonth key, Event.commit key] =
              (s1.events ++ [Event.exitMonth key]) ++ [Event.commit key] := by
            simp
          rw [heq]
          refine kOrdered_snoc_commit ?_ (List.mem_append_right _ (List.mem_cons_self _ _))
          intro hmem
          rcases List.mem_append.mp hmem with h1 | h1
          · exact hnos1 h1
          · simp at h1
      · exact ⟨fun hmem => absurd hmem hnos1, kOrdered_of_not_mem hnos1⟩
  · have hbenign : ∀ e ∈ d, touches k e = false ∧ e ≠ Event.commit k :=
      fun e he => benign_of_archEvent hkk (hall e he)
    have hJ1 : JInv k s1 := by
      constructor
      · intro hmem
        rw [hd] at hmem
        rcases List.mem_append.mp hmem with h1 | h1
        · rw [hp]
          exact hJ.1 h1
        · exact absurd rfl (hbenign _ h1).2
      · rw [hd]
        exact kOrdered_append hJ.2 hbenign
    unfold monthCommit
    split
    · exact hJ1
    · split
      · constructor
        · intro hmem
          rcases List.mem_append.mp hmem with h1 | h1
          · exact List.mem_append_left _ (hJ1.1 h1)
          · exfalso
            simp at h1
            exact hkk h1.symm
        · show kOrdered k (s1.events ++ [Event.exitMonth key, Event.commit key])
          refine kOrdered_append hJ1.2 ?_
          intro e he
          simp at he
          rcases he with he | he
          · subst he
            exact ⟨by simp [touches], by simp⟩
          · subst he
            exact ⟨by simp [touches], by intro hc; exact hkk (by injection hc)⟩
      · exact hJ1

theorem monthStep_noTouch {k key : String} (up : Bool) {s s1 : RunState}
    (hNT : NoTouch k s) (hkey : key ∉ s.processed) (hAD : ArchDelta key s s1) :
    NoTouch k (monthCommit key up s1) := by
  obtain ⟨hp, hl, hab, ht, hv, ⟨d, hd, hall⟩⟩ := hAD
  have hkk : key ≠ k := fun h => hkey (h ▸ hNT.1)
  have hNT1 : NoTouch k s1 := by
    refine ⟨hp ▸ hNT.1, ?_⟩
    intro e he
    rw [hd] at he
    rcases List.mem_append.mp he with h1 | h1
    · exact hNT.2 e h1
    · exact benign_of_archEvent hkk (hall e h1)
  unfold monthCommit
  split
  · exact hNT1
  · split
    · constructor
      · exact List.mem_append_left _ hNT1.1
      · intro e he
        rcases List.mem_append.mp he with h1 | h1
        · exact hNT1.2 e h1
        · simp at h1
          rcases h1 with h1 | h1
          · subst h1
            exact ⟨by simp [touches], by simp⟩
          · subst h1
            exact ⟨by simp [touches], by intro hc; exact hkk (by injection hc)⟩
    · exact hNT1

theorem monthStep_L {l0 : List String} {key : String} (up : Bool) {s s1 : RunState}
    (hL : LInv l0 s) (hAD : ArchDelta key s s1) :
    LInv l0 (monthCommit key up s1) := by
  obtain ⟨hp, hl, hab, ht, hv, ⟨d, hd, hall⟩⟩ := hAD
  have hfilter : d.filterMap commitKeyOf = [] := by
    rw [List.filterMap_eq_nil_iff]
    exact fun e he => commitKeyOf_of_archEvent (hall e he)
  have hL1 : LInv l0 s1 := by
    unfold LInv at hL ⊢
    rw [hd, hl, List.filterMap_append, hfilter, List.append_nil, hL]
  unfold monthCommit
  split
  · exact hL1
  · split
    · unfold LInv at hL1 ⊢
      show s1.ledgerFile ++ [key] =
        l0 ++ (s1.events ++ [Event.exitMonth key, Event.commit key]).filterMap commitKeyOf
      rw [List.filterMap_append, hL1, List.append_assoc]
      simp [commitKeyOf]
    · exact hL1

/-! ### Lifting the invariants through the traversal -/

theorem processMonth_pres_J (k od y : String) (s : RunState) (mo : MonthW)
    (h : JInv k s) : JInv k (processMonth od y s mo) := by
  unfold processMonth
  split
  · exact h
  · split
    · exact h
    · rename_i hcont
      split
      · exact h
      · exact h
      · refine monthStep_J mo.cwdUpOk h ?_ (monthArchFold_delta _ mo.name od s mo)
        intro hmem
        exact hcont (by simpa using hmem)

theorem processMonth_pres_noTouch (k od y : String) (s : RunState) (mo : MonthW)
    (h : NoTouch k s) : NoTouch k (processMonth od y s mo) := by
  unfold processMonth
  split
  · exact h
  · split
    · exact h
    · rename_i hcont
      split
      · exact h
      · exact h
      · refine monthStep_noTouch mo.cwdUpOk h ?_ (monthArchFold_delta _ mo.name od s mo)
        intro hmem
        exact hcont (by simpa using hmem)

theorem processMonth_pres_L (l0 : List String) (od y : String) (s : RunState)
    (mo : MonthW) (h : LInv l0 s) : LInv l0 (processMonth od y s mo) := by
  unfold processMonth
  split
  · exact h
  · split
    · exact h
    · split
      · exact h
      · exact h
      · exact monthStep_L mo.cwdUpOk h (monthArchFold_delta _ mo.name od s mo)

theorem yearExit_pres_J (k : String) (up : Bool) (s1 : RunState)
    (h : JInv k s1) : JInv k (yearExit up s1) := by
  unfold yearExit
  split
  · exact h
  · split
    · exact h
    · exact h

theorem yearExit_pres_noTouch (k : String) (up : Bool) (s1 : RunState)
    (h : NoTouch k s1) : NoTouch k (yearExit up s1) := by
  unfold yearExit
  split
  · exact h
  · split
    · exact h
    · exact h

theorem yearExit_pres_L (l0 : List String) (up : Bool) (s1 : RunState)
    (h : LInv l0 s1) : LInv l0 (yearExit up s1) := by
  unfold yearExit
  split
  · exact h
  · split
    · exact h
    · exact h

theorem yearMonthsFold_pres_J (k od : String) (y : YearW) (s : RunState)
    (h : JInv k s) : JInv k (yearMonthsFold od s y) := by
  refine foldl_pres (JInv k) (fun _ => True) _ ?_ _ (fun _ _ => trivial) s h
  intro s' mname _ hs'
  cases hf : y.months.find? (fun mo => mo.name == mname) with
  | none => simpa only [hf] using hs'
  | some mo =>
      simp only [hf]
      exact processMonth_pres_J k od y.name s' mo hs'

theorem yearMonthsFold_pres_noTouch (k od : String) (y : YearW) (s : RunState)
    (h : NoTouch k s) : NoTouch k (yearMonthsFold od s y) := by
  refine foldl_pres (NoTouch k) (fun _ => True) _ ?_ _ (fun _ _ => trivial) s h
  intro s' mname _ hs'
  cases hf : y.months.find? (fun mo => mo.name == mname) with
  | none => simpa only [hf] using hs'
  | some mo =>
      simp only [hf]
      exact processMonth_pres_noTouch k od y.name s' mo hs'

theorem yearMonthsFold_pres_L (l0 : List String) (od : String) (y : YearW)
    (s : RunState) (h : LInv l0 s) : LInv l0 (yearMonthsFold od s y) := by
  refine foldl_pres (LInv l0) (fun _ => True) _ ?_ _ (fun _ _ => trivial) s h
  intro s' mname _ hs'
  cases hf : y.months.find? (fun mo => mo.name == mname) with
  | none => simpa only [hf] using hs'
  | some mo =>
      simp only [hf]
      exact processMonth_pres_L l0 od y.name s' mo hs'

theorem processYear_pres_J (k od : String) (s : RunState) (y : YearW)
    (h : JInv k s) : JInv k (processYear od s y) := by
  unfold processYear
  split
  · exact h
  · split
    · exact h
    · exact h
    · exact yearExit_pres_J k y.cwdUpOk _ (yearMonthsFold_pres_J k od y s h)

theorem processYear_pres_noTouch (k od : String) (s : RunState) (y : YearW)
    (h : NoTouch k s) : NoTouch k (processYear od s y) := by
  unfold processYear
  split
  · exact h
  · split
    · exact h
    · exact h
    · exact yearExit_pres_noTouch k y.cwdUpOk _ (yearMonthsFold_pres_noTouch k od y s h)

theorem processYear_pres_L (l0 : List String) (od : String) (s : RunState)
    (y : YearW) (h : LInv l0 s) : LInv l0 (processYear od s y) := by
  unfold processYear
  split
  · exact h
  · split
    · exact h
    · exact h
    · exact yearExit_pres_L l0 y.cwdUpOk _ (yearMonthsFold_pres_L l0 od y s h)

theorem runYears_pres_J (k od : String) (s : RunState) (w : World)
    (h : JInv k s) : JInv k (runYears od s w) := by
  refine foldl_pres (JInv k) (fun _ => True) _ ?_ _ (fun _ _ => trivial) s h
  intro s' yname _ hs'
  cases hf : w.years.find? (fun y => y.name == yname) with
  | none => simpa only [hf] using hs'
  | some y =>
      simp only [hf]
      exact processYear_pres_J k od s' y hs'

theorem runYears_pres_noTouch (k od : String) (s : RunState) (w : World)
    (h : NoTouch k s) : NoTouch k (runYears od s w) := by
  refine foldl_pres (NoTouch k) (fun _ => True) _ ?_ _ (fun _ _ => trivial) s h
  intro s' yname _ hs'
  cases hf : w.years.find? (fun y => y.name == yname) with
  | none => simpa only [hf] using hs'
  | some y =>
      simp only [hf]
      exact processYear_pres_noTouch k od s' y hs'

theorem runYears_pres_L (l0 : List String) (od : String) (s : RunState)
    (w : World) (h : LInv l0 s) : LInv l0 (runYears od s w) := by
  refine foldl_pres (LInv l0) (fun _ => True) _ ?_ _ (fun _ _ => trivial) s h
  intro s' yname _ hs'
  cases hf : w.years.find? (fun y => y.name == yname) with
  | none => simpa only [hf] using hs'
  | some y =>
      simp only [hf]
      exact processYear_pres_L l0 od s' y hs'

theorem run_pres_J (k : String) (w : World) (l0 : List String) (od : String) :
    JInv k (extract_from_ftp_with_7z w l0 od) := by
  have h0 : JInv k (initState l0) :=
    ⟨fun hmem => absurd hmem (by simp [initState]),
      kOrdered_of_not_mem (by simp [initState])⟩
  unfold extract_from_ftp_with_7z
  split
  · exact h0
  · split
    · exact h0
    · split
      · exact h0
      · exact runYears_pres_J k od _ w h0

theorem run_pres_noTouch {k : String} (w : World) {l0 : List String} (od : String)
    (hk : k ∈ l0) : NoTouch k (extract_from_ftp_with_7z w l0 od) := by
  have h0 : NoTouch k (initState l0) := ⟨hk, by simp [initState]⟩
  unfold extract_from_ftp_with_7z
  split
  · exact h0
  · split
    · exact h0
    · split
      · exact h0
      · exact runYears_pres_noTouch k od _ w h0

theorem run_pres_L (w : World) (l0 : List String) (od : String) :
    LInv l0 (extract_from_ftp_with_7z w l0 od) := by
  have h0 : LInv l0 (initState l0) := by simp [LInv, initState]
  unfold extract_from_ftp_with_7z
  split
  · exact h0
  · split
    · exact h0
    · split
      · exact h0
      · exact runYears_pres_L l0 od _ w h0

/-! ### Per-archive containment: successful downloads never abort -/

theorem processArchive_noabort (k mf od : String) (s : RunState) (a : ArchiveW)
    (hs : s.aborted = false) (ha : a.fetchOk = true) :
    (processArchive k mf od s a).aborted = false := by
  unfold processArchive
  have h1 : ¬ (s.aborted = true) := by rw [hs]; simp
  rw [if_neg h1, if_pos ha]
  split
  · exact hs
  · rename_i members hmem
    have hd := member_fold_delta od mf members
      { s with events := s.events ++ [Event.fetch k a.name, Event.extract k a.name] }
    rw [hd.2.2.1]
    exact hs

theorem processArchive_events_mem (k mf od : String) (s : RunState) (a : ArchiveW)
    (hs : s.aborted = false) (ha : a.fetchOk = true) :
    Event.fetch k a.name ∈ (processArchive k mf od s a).events ∧
    Event.extract k a.name ∈ (processArchive k mf od s a).events := by
  unfold processArchive
  have h1 : ¬ (s.aborted = true) := by rw [hs]; simp
  rw [if_neg h1, if_pos ha]
  split
  · constructor
    · exact List.mem_append_right _ (by simp)
    · exact List.mem_append_right _ (by simp)
  · rename_i members hmem
    obtain ⟨_, _, _, _, _, ⟨d, hd, _⟩⟩ := member_fold_delta od mf members
      { s with events := s.events ++ [Event.fetch k a.name, Event.extract k a.name] }
    rw [hd]
    constructor
    · exact List.mem_append_left _ (List.mem_append_right _ (by simp))
    · exact List.mem_append_left _ (List.mem_append_right _ (by simp))

theorem arch_fold_all (k mf od : String) (as : List ArchiveW) (s : RunState)
    (hs : s.aborted = false) (hall : ∀ a ∈ as, a.fetchOk = true) :
    (as.foldl (processArchive k mf od) s).aborted = false ∧
    ∀ a ∈ as, Event.fetch k a.name ∈ (as.foldl (processArchive k mf od) s).events ∧
      Event.extract k a.name ∈ (as.foldl (processArchive k mf od) s).events := by
  induction as generalizing s with
  | nil => exact ⟨hs, by simp⟩
  | cons b bs ih =>
      have hb : b.fetchOk = true := hall b (List.mem_cons_self b bs)
      have hs1 : (processArchive k mf od s b).aborted = false :=
        processArchive_noabort k mf od s b hs hb
      obtain ⟨hab2, hrest⟩ := ih (processArchive k mf od s b) hs1
        (fun a haa => hall a (List.mem_cons_of_mem b haa))
      refine ⟨hab2, ?_⟩
      intro a haa
      rcases List.mem_cons.mp haa with rfl | haa
      · obtain ⟨_, _, _, _, _, ⟨d, hd, _⟩⟩ :=
          arch_fold_delta k mf od bs (processArchive k mf od s a)
        have hmem := processArchive_events_mem k mf od s a hs hb
        rw [List.foldl_cons, hd]
        exact ⟨List.mem_append_left _ hmem.1, List.mem_append_left _ hmem.2⟩
      · exact hrest a haa

/-! ### Saved-file and table-key correspondence -/

theorem mk_toList (p : String) : (⟨p.toList⟩ : String) = p := by
  cases p
  rfl

theorem splitext_append (p : String) : (splitext p).1 ++ (splitext p).2 = p := by
  unfold splitext
  split
  · simp
  · rename_i i hi
    split
    · show (⟨p.toList.take i⟩ : String) ++ ⟨p.toList.drop i⟩ = p
      have h1 : (⟨p.toList.take i⟩ : String) ++ ⟨p.toList.drop i⟩ =
          ⟨p.toList.take i ++ p.toList.drop i⟩ := rfl
      rw [h1, List.take_append_drop, mk_toList]
    · simp

theorem saved_path_eq (od mf name : String) :
    pathJoin od (mf ++ "_" ++ (splitext name).1 ++ (splitext name).2) =
    pathJoin od (mf ++ "_" ++ name) := by
  rw [String.append_assoc, splitext_append]

/-- Every key of the assignment log denotes a file that was successfully
copied into the durable store: its permanent path is in the saved list. -/
def TInv (od : String) (s : RunState) : Prop :=
  ∀ p ∈ s.tables, pathJoin od p.1 ∈ s.saved

theorem processMember_pres_T (od mf : String) (s : RunState) (m : MemberW)
    (h : TInv od s) : TInv od (processMember od mf s m) := by
  unfold processMember
  split
  · split
    · rename_i path hsave
      have hpath : path =
          pathJoin od (mf ++ "_" ++ (splitext m.name).1 ++ (splitext m.name).2) := by
        unfold save_extracted_file at hsave
        split at hsave
        · injection hsave with hs2
          exact hs2.symm
        · cases hsave
      split
      · intro p hp
        rcases List.mem_append.mp hp with h1 | h1
        · exact List.mem_append_left _ (h p h1)
        · simp at h1
          subst h1
          refine List.mem_append_right _ ?_
          rw [hpath, saved_path_eq]
          simp
      · intro p hp
        exact List.mem_append_left _ (h p hp)
    · exact h
  · exact h

theorem member_fold_pres_T (od mf : String) (ms : List MemberW) (s : RunState)
    (h : TInv od s) : TInv od (ms.foldl (processMember od mf) s) := by
  refine foldl_pres (TInv od) (fun _ => True) _ ?_ _ (fun _ _ => trivial) s h
  intro s' m _ hs'
  exact processMember_pres_T od mf s' m hs'

theorem processArchive_pres_T (k mf od : String) (s : RunState) (a : ArchiveW)
    (h : TInv od s) : TInv od (processArchive k mf od s a) := by
  unfold processArchive
  split
  · exact h
  · split
    · split
      · exact h
      · exact member_fold_pres_T od mf _ _ h
    · exact h

theorem monthArchFold_pres_T (k mf od : String) (s : RunState) (mo : MonthW)
    (h : TInv od s) : TInv od (monthArchFold k mf od s mo) := by
  refine foldl_pres (TInv od) (fun _ => True) _ ?_ _ (fun _ _ => trivial) s h
  intro s' a _ hs'
  exact processArchive_pres_T k mf od s' a hs'

theorem monthCommit_pres_T (od k : String) (up : Bool) (s1 : RunState)
    (h : TInv od s1) : TInv od (monthCommit k up s1) := by
  unfold monthCommit
  split
  · exact h
  · split
    · exact h
    · exact h

theorem processMonth_pres_T (od y : String) (s : RunState) (mo : MonthW)
    (h : TInv od s) : TInv od (processMonth od y s mo) := by
  unfold processMonth
  split
  · exact h
  · split
    · exact h
    · split
      · exact h
      · exact h
      · exact monthCommit_pres_T od _ mo.cwdUpOk _
          (monthArchFold_pres_T _ mo.name od s mo h)

theorem yearExit_pres_T (od : String) (up : Bool) (s1 : RunState)
    (h : TInv od s1) : TInv od (yearExit up s1) := by
  unfold yearExit
  split
  · exact h
  · split
    · exact h
    · exact h

theorem yearMonthsFold_pres_T (od : String) (y : YearW) (s : RunState)
    (h : TInv od s) : TInv od (yearMonthsFold od s y) := by
  refine foldl_pres (TInv od) (fun _ => True) _ ?_ _ (fun _ _ => trivial) s h
  intro s' mname _ hs'
  cases hf : y.months.find? (fun mo => mo.name == mname) with
  | none => simpa only [hf] using hs'
  | some mo =>
      simp only [hf]
      exact processMonth_pres_T od y.name s' mo hs'

theorem processYear_pres_T (od : String) (s : RunState) (y : YearW)
    (h : TInv od s) : TInv od (processYear od s y) := by
  unfold processYear
  split
  · exact h
  · split
    · exact h
    · exact h
    · exact yearExit_pres_T od y.cwdUpOk _ (yearMonthsFold_pres_T od y s h)

theorem runYears_pres_T (od : String) (s : RunState) (w : World)
    (h : TInv od s) : TInv od (runYears od s w) := by
  refine foldl_pres (TInv od) (fun _ => True) _ ?_ _ (fun _ _ => trivial) s h
  intro s' yname _ hs'
  cases hf : w.years.find? (fun y => y.name == yname) with
  | none => simpa only [hf] using hs'
  | some y =>
      simp only [hf]
      exact processYear_pres_T od s' y hs'

theorem run_pres_T (w : World) (l0 : List String) (od : String) :
    TInv od (extract_from_ftp_with_7z w l0 od) := by
  have h0 : TInv od (initState l0) := by
    intro p hp
    simp [initState] at hp
  unfold extract_from_ftp_with_7z
  split
  · exact h0
  · split
    · exact h0
    · split
      · exact h0
      · exact runYears_pres_T od _ w h0

/-! ### Dictionary assignments per member -/

/-- Number of assignments of one table key in a trace. -/
def assignCount (k : String) (es : List Event) : Nat :=
  (es.filter (fun e => e == Event.assign k)).length

theorem processMember_assign_le (k od mf : String) (s : RunState) (m : MemberW) :
    assignCount k (processMember od mf s m).events ≤ assignCount k s.events + 1 := by
  unfold processMember
  split
  · split
    · split
      · show assignCount k (s.events ++ [Event.assign (mf ++ "_" ++ m.name)]) ≤
          assignCount k s.events + 1
        unfold assignCount
        rw [List.filter_append, List.length_append]
        have hle :
            (List.filter (fun e => e == Event.assign k)
              [Event.assign (mf ++ "_" ++ m.name)]).length ≤ 1 := by
          rcases hb : (Event.assign (mf ++ "_" ++ m.name) == Event.assign k) with _ | _
          · simp [List.filter, hb]
          · simp [List.filter, hb]
        omega
      · exact Nat.le_succ _
    · exact Nat.le_succ _
  · exact Nat.le_succ _

/-! ### Concrete worlds used by counterexamples and witnesses -/

/-- Parser behaviour that succeeds only for the semicolon/latin1 attempt. -/
def parseLatin1 (t : Table) : String × String → Option Table :=
  fun p => if p = (";", "latin1") then some t else none

/-- Parser behaviour that succeeds only for the comma/utf-8 attempt. -/
def parseUtf8 : String × String → Option Table :=
  fun p => if p = (",", "utf-8") then some 5 else none

/-- Parser behaviour that fails for every attempt. -/
def parseNever : String × String → Option Table := fun _ => none

def memLatin1 (t : Table) : MemberW :=
  { name := "a.csv", copyOk := true, parse := parseLatin1 t }

def okMonth (nm : String) (entries : List ArchiveW) : MonthW :=
  { name := nm, cwd := FtpRes.ok, nlstOk := true, entries := entries, cwdUpOk := true }

def okYear (nm : String) (months : List MonthW) : YearW :=
  { name := nm, cwd := FtpRes.ok, nlstOk := true, months := months, cwdUpOk := true }

def okWorld (years : List YearW) : World :=
  { connectOk := true, loginOk := true, cwdBaseOk := true, nlstOk := true, years := years }

def worldC1 : World :=
  okWorld [okYear "2024"
    [okMonth "202401" [{ name := "x.7z", fetchOk := true, extractOut := some [memLatin1 1] }],
     okMonth "202402" [{ name := "y.7z", fetchOk := true, extractOut := some [memLatin1 2] }]]]

def monthC2 : MonthW :=
  okMonth "202401"
    [{ name := "a.7z", fetchOk := false, extractOut := none },
     { name := "b.7z", fetchOk := true, extractOut := some [memLatin1 1] }]

def worldC2 : World :=
  okWorld [okYear "2024" [monthC2, okMonth "202402" []]]

/-- Month with one archive whose extraction fails and one healthy sibling,
for the amended per-archive containment claim. -/
def monthC2B : MonthW :=
  okMonth "202401"
    [{ name := "a.7z", fetchOk := true, extractOut := none },
     { name := "b.7z", fetchOk := true, extractOut := some [memLatin1 1] }]

def worldC4 : World :=
  okWorld [okYear "2024"
    [okMonth "202401" [{ name := "x.7z", fetchOk := true, extractOut := some [memLatin1 1] }]]]

def worldC7 : World :=
  okWorld [okYear "2024"
    [okMonth "202401"
      [{ name := "a1.7z", fetchOk := true, extractOut := some [memLatin1 1] },
       { name := "a2.7z", fetchOk := true, extractOut := some [memLatin1 2] }]]]

def worldC6 : World :=
  { connectOk := false, loginOk := true, cwdBaseOk := true, nlstOk := true,
    years := [okYear "2024"
      [okMonth "202401" [{ name := "x.7z", fetchOk := true, extractOut := some [memLatin1 1] }]]] }

def yearC8 : YearW :=
  okYear "2024"
    [okMonth "202401" [{ name := "x.7z", fetchOk := true, extractOut := some [memLatin1 1] }],
     okMonth "202402" [{ name := "bad.7z", fetchOk := false, extractOut := none }],
     okMonth "202403" [{ name := "z.7z", fetchOk := true, extractOut := some [memLatin1 3] }]]

def worldC8 : World := okWorld [yearC8]

/-- An already-aborted state with accumulated results, for the freeze part
of the containment claim. -/
def stateAborted : RunState :=
  { tables := [("202401_a.csv", 1)], saved := ["out/202401_a.csv"], processed := [],
    ledgerFile := [], events := [], aborted := true }

def memC9 : MemberW := { name := "a.csv", copyOk := false, parse := fun _ => some 7 }

def worldC10 : World :=
  okWorld [okYear "2024"
    [okMonth "202401"
      [{ name := "bad.7z", fetchOk := true,
         extractOut := some [{ name := "bad.csv", copyOk := true, parse := parseNever }] }]]]

def worldC10b : World :=
  okWorld [okYear "2024"
    [okMonth "202401" [{ name := "x.7z", fetchOk := true, extractOut := some [memLatin1 1] }]]]

/-! ### The claims -/

/-- C1: for every folder key loaded from the processed-folders ledger file
at the start of a run, the controller never performs the retrbinary
download or the 7z extraction of any archive under that key during the
run: no fetch or extract event of the key appears in the trace, whatever
the remote world looks like. -/
theorem claim_C1 (w : World) (ledger0 : List String) (od k : String)
    (hk : k ∈ ledger0) :
    ∀ e ∈ (extract_from_ftp_with_7z w ledger0 od).events, touches k e = false :=
  fun e he => ((run_pres_noTouch w od hk).2 e he).1

theorem claim_C1_witness :
    ("2024/202401" ∈ ["2024/202401"]) ∧
    (∀ e ∈ (extract_from_ftp_with_7z worldC1 ["2024/202401"] "out").events,
      touches "2024/202401" e = false) :=
  ⟨by decide, claim_C1 worldC1 ["2024/202401"] "out" "2024/202401" (by decide)⟩

/-- C2 counterexample: a month whose first archive fails at the download
step.  The claim says the failure is contained per archive, the sibling is
still processed and the month is still committed; in the code the
retrbinary call sits outside the per-archive try/except, so the whole
traversal aborts: the only event is the failed download, the sibling
archive is never fetched, and the ledger file stays empty. -/
theorem claim_C2_cex :
    (extract_from_ftp_with_7z worldC2 [] "out").events =
      [Event.fetch "2024/202401" "a.7z"] ∧
    (extract_from_ftp_with_7z worldC2 [] "out").ledgerFile = [] ∧
    (extract_from_ftp_with_7z worldC2 [] "out").aborted = true :=
  ⟨by decide, by decide, by decide⟩

/-- C2 amended: failure containment at per-archive granularity holds for
the extraction step (the py7zr block), not for the download step: in a
month whose archives all download successfully, an archive whose
extraction fails is skipped, every sibling 7z archive is still fetched and
extracted, the month is still ledger-committed, and no abort flag
propagates to the following month. -/
theorem claim_C2 (od y : String) (s : RunState) (mo : MonthW)
    (hs : s.aborted = false)
    (hcont : s.processed.contains (y ++ "/" ++ mo.name) = false)
    (hcwd : mo.cwd = FtpRes.ok) (hnlst : mo.nlstOk = true) (hup : mo.cwdUpOk = true)
    (hfetch : ∀ a ∈ mo.entries, a.fetchOk = true) :
    (processMonth od y s mo).aborted = false ∧
    Event.commit (y ++ "/" ++ mo.name) ∈ (processMonth od y s mo).events ∧
    ∀ a ∈ mo.entries, endsWithS (toLowerS a.name) ".7z" = true →
      Event.fetch (y ++ "/" ++ mo.name) a.name ∈ (processMonth od y s mo).events ∧
      Event.extract (y ++ "/" ++ mo.name) a.name ∈ (processMonth od y s mo).events := by
  have hred : processMonth od y s mo =
      monthCommit (y ++ "/" ++ mo.name) mo.cwdUpOk
        (monthArchFold (y ++ "/" ++ mo.name) mo.name od s mo) := by
    unfold processMonth
    rw [if_neg (by rw [hs]; simp), if_neg (by rw [hcont]; simp), hcwd]
  have hfold : monthArchFold (y ++ "/" ++ mo.name) mo.name od s mo =
      (mo.entries.filter (fun a => endsWithS (toLowerS a.name) ".7z")).foldl
        (processArchive (y ++ "/" ++ mo.name) mo.name od) s := by
    unfold monthArchFold
    rw [hnlst]
    simp
  obtain ⟨hab1, hmem1⟩ := arch_fold_all (y ++ "/" ++ mo.name) mo.name od
    (mo.entries.filter (fun a => endsWithS (toLowerS a.name) ".7z")) s hs
    (fun a ha => hfetch a (List.mem_of_mem_filter ha))
  rw [hred, hfold]
  unfold monthCommit
  rw [if_neg (by rw [hab1]; simp), if_pos hup]
  refine ⟨hab1, List.mem_append_right _ (by simp), ?_⟩
  intro a ha h7z
  have haf : a ∈ mo.entries.filter (fun b => endsWithS (toLowerS b.name) ".7z") :=
    List.mem_filter.mpr ⟨ha, h7z⟩
  obtain ⟨hf, he⟩ := hmem1 a haf
  exact ⟨List.mem_append_left _ hf, List.mem_append_left _ he⟩

theorem claim_C2_witness :
    monthC2B.cwd = FtpRes.ok ∧
    (processMonth "out" "2024" (initState []) monthC2B).aborted = false ∧
    Event.commit ("2024" ++ "/" ++ monthC2B.name) ∈
      (processMonth "out" "2024" (initState []) monthC2B).events := by
  have h := claim_C2 "out" "2024" (initState []) monthC2B (by decide) (by decide)
    rfl rfl rfl (by decide)
  exact ⟨rfl, h.1, h.2.1⟩

/-- C3: the decoder applies exactly the ordered attempt list semicolon
latin1, comma utf-8, semicolon cp1252 with the skip-bad-lines policy
fixed in each attempt, returns the first attempt that parses; for input
failing the first attempt and succeeding under comma utf-8 it returns the
utf-8 result; and when all three attempts fail, no table is assigned, the
durably stored file stays in the saved list, and the member step returns
normally. -/
theorem claim_C3 (parse : String × String → Option Table) :
    (read_csv_chain parse = firstSuccess parse read_csv_attempts) ∧
    (∀ t, parse (";", "latin1") = none → parse (",", "utf-8") = some t →
      read_csv_chain parse = some t) ∧
    (parse (";", "latin1") = none → parse (",", "utf-8") = none →
      parse (";", "cp1252") = none → read_csv_chain parse = none) ∧
    (∀ (od mf : String) (s : RunState) (m : MemberW),
      qualifies m.name = true → m.copyOk = true →
      m.parse (";", "latin1") = none → m.parse (",", "utf-8") = none →
      m.parse (";", "cp1252") = none →
      processMember od mf s m =
        { s with saved := s.saved ++
            [pathJoin od (mf ++ "_" ++ (splitext m.name).1 ++ (splitext m.name).2)] }) := by
  refine ⟨?_, ?_, ?_, ?_⟩
  · cases h1 : parse (";", "latin1") with
    | some t => simp [read_csv_chain, firstSuccess, read_csv_attempts, h1]
    | none =>
        cases h2 : parse (",", "utf-8") with
        | some t => simp [read_csv_chain, firstSuccess, read_csv_attempts, h1, h2]
        | none =>
            cases h3 : parse (";", "cp1252") with
            | some t =>
                simp [read_csv_chain, firstSuccess, read_csv_attempts, h1, h2, h3]
            | none =>
                simp [read_csv_chain, firstSuccess, read_csv_attempts, h1, h2, h3]
  · intro t h1 h2
    simp [read_csv_chain, h1, h2]
  · intro h1 h2 h3
    simp [read_csv_chain, h1, h2, h3]
  · intro od mf s m hq hc h1 h2 h3
    have hchain : read_csv_chain m.parse = none := by
      simp [read_csv_chain, h1, h2, h3]
    unfold processMember
    rw [if_pos hq]
    split
    · rename_i path hsave
      simp only [hchain]
      have hpath : path =
          pathJoin od (mf ++ "_" ++ (splitext m.name).1 ++ (splitext m.name).2) := by
        unfold save_extracted_file at hsave
        rw [if_pos hc] at hsave
        injection hsave with hp
        exact hp.symm
      rw [hpath]
    · rename_i hsave
      unfold save_extracted_file at hsave
      rw [if_pos hc] at hsave
      cases hsave

theorem claim_C3_witness :
    parseUtf8 (";", "latin1") = none ∧ parseUtf8 (",", "utf-8") = some 5 ∧
    read_csv_chain parseUtf8 = some 5 :=
  ⟨by decide, by decide, (claim_C3 parseUtf8).2.1 5 (by decide) (by decide)⟩

/-- C4: a ledger commit of a folder key happens only after the controller
walked back out of the month directory, with no download or extraction and
no second commit of that key after it; the ledger file is exactly the
loaded lines followed by the committed keys in commit order, so a commit
is a durable append; and a committed key is seen by the load of any
subsequent run, which then never fetches or extracts under it. -/
theorem claim_C4 (w : World) (ledger0 : List String) (od k : String) :
    (∀ pre post, (extract_from_ftp_with_7z w ledger0 od).events =
        pre ++ Event.commit k :: post →
      Event.exitMonth k ∈ pre ∧
        ∀ e ∈ post, touches k e = false ∧ e ≠ Event.commit k) ∧
    ((extract_from_ftp_with_7z w ledger0 od).ledgerFile =
      ledger0 ++ (extract_from_ftp_with_7z w ledger0 od).events.filterMap commitKeyOf) ∧
    (Event.commit k ∈ (extract_from_ftp_with_7z w ledger0 od).events →
      k ∈ (extract_from_ftp_with_7z w ledger0 od).ledgerFile) ∧
    (Event.commit k ∈ (extract_from_ftp_with_7z w ledger0 od).events →
      ∀ (w' : World) (od' : String),
        ∀ e ∈ (extract_from_ftp_with_7z w'
            (extract_from_ftp_with_7z w ledger0 od).ledgerFile od').events,
          touches k e = false) := by
  have hJ := run_pres_J k w ledger0 od
  have hL := run_pres_L w ledger0 od
  have hcm : Event.commit k ∈ (extract_from_ftp_with_7z w ledger0 od).events →
      k ∈ (extract_from_ftp_with_7z w ledger0 od).ledgerFile := by
    intro hc
    rw [hL]
    exact List.mem_append_right _ (List.mem_filterMap.mpr ⟨Event.commit k, hc, rfl⟩)
  refine ⟨hJ.2, hL, hcm, ?_⟩
  intro hc w' od' e he
  exact ((run_pres_noTouch w' od' (hcm hc)).2 e he).1

theorem claim_C4_witness :
    Event.commit "2024/202401" ∈ (extract_from_ftp_with_7z worldC4 [] "out").events ∧
    "2024/202401" ∈ (extract_from_ftp_with_7z worldC4 [] "out").ledgerFile := by
  have h := (claim_C4 worldC4 [] "out" "2024/202401").2.2.1
  exact ⟨by decide, h (by decide)⟩

/-- C5 counterexample: on the listing of the claim the year filter of the
code returns the empty list, not the singleton 2023: line 95 hard-codes
the allow-list 2024/2025 on top of the four-digit rule, so 2023 is
rejected. -/
theorem claim_C5_cex :
    year_dirs_filter ["2023", "2024x", "24", "202401", "2024ab", "readme.txt"] ≠ ["2023"] ∧
    year_dirs_filter ["2023", "2024x", "24", "202401", "2024ab", "readme.txt"] = [] :=
  ⟨by decide, by decide⟩

/-- C5 amended: the year filter keeps exactly the entries that are four
decimal digits and lie in the hard-coded allow-list 2024/2025 - so the
listing of the claim yields the empty list, and the same listing with 2024
in place of 2023 yields exactly 2024; the month filter on the children of
2024 yields 202401 and 202402, visited in ascending order. -/
theorem claim_C5 :
    year_dirs_filter ["2023", "2024x", "24", "202401", "2024ab", "readme.txt"] = [] ∧
    year_dirs_filter ["2024", "2024x", "24", "202401", "2024ab", "readme.txt"] = ["2024"] ∧
    sortStr (month_dirs_filter "2024" ["202401", "202413x", "202402"]) =
      ["202401", "202402"] ∧
    (∀ (ds : List String) (d : String), d ∈ year_dirs_filter ds ↔
      d ∈ ds ∧ isdigitS d = true ∧ d.toList.length = 4 ∧ (d = "2024" ∨ d = "2025")) := by
  refine ⟨by decide, by decide, by decide, ?_⟩
  intro ds d
  unfold year_dirs_filter
  rw [List.mem_filter]
  constructor
  · rintro ⟨hmem, hcond⟩
    simp only [Bool.and_eq_true, Bool.or_eq_true, beq_iff_eq] at hcond
    exact ⟨hmem, hcond.1.1, hcond.1.2, hcond.2⟩
  · rintro ⟨hmem, h1, h2, h3⟩
    refine ⟨hmem, ?_⟩
    simp only [Bool.and_eq_true, Bool.or_eq_true, beq_iff_eq]
    exact ⟨⟨h1, h2⟩, h3⟩

theorem claim_C5_witness : "2024" ∈ year_dirs_filter ["2024", "abc"] :=
  (claim_C5.2.2.2 ["2024", "abc"] "2024").mpr
    ⟨by decide, by decide, by decide, Or.inl rfl⟩

/-- C6: a connection failure, a login failure or a failure to navigate to
the base remote path is fatal: the run performs nothing - no table is
assigned, no file saved, no event emitted - and the returned results are
the empty dictionary and the empty saved-files list, with the ledger file
untouched. -/
theorem claim_C6 (w : World) (ledger0 : List String) (od : String)
    (h : w.connectOk = false ∨ w.loginOk = false ∨ w.cwdBaseOk = false) :
    (extract_from_ftp_with_7z w ledger0 od).tables = [] ∧
    (extract_from_ftp_with_7z w ledger0 od).saved = [] ∧
    (extract_from_ftp_with_7z w ledger0 od).events = [] ∧
    (extract_from_ftp_with_7z w ledger0 od).ledgerFile = ledger0 := by
  unfold extract_from_ftp_with_7z
  split
  · exact ⟨rfl, rfl, rfl, rfl⟩
  · split
    · exact ⟨rfl, rfl, rfl, rfl⟩
    · split
      · exact ⟨rfl, rfl, rfl, rfl⟩
      · rename_i h1 h2 h3
        exfalso
        rcases h with hcase | hcase | hcase
        · rw [hcase] at h1
          simp at h1
        · rw [hcase] at h2
          simp at h2
        · rw [hcase] at h3
          simp at h3

theorem claim_C6_witness :
    worldC6.connectOk = false ∧
    (extract_from_ftp_with_7z worldC6 ["2023/202301"] "out").tables = [] ∧
    (extract_from_ftp_with_7z worldC6 ["2023/202301"] "out").saved = [] := by
  have h := claim_C6 worldC6 ["2023/202301"] "out" (Or.inl rfl)
  exact ⟨rfl, h.1, h.2.1⟩

/-- C7 counterexample: two archives of the same month both containing a
member named a.csv.  The claim says a table for a given key is created at
most once per run; the code assigns the dictionary key 202401_a.csv twice,
once per archive, as both the assignment log and the assignment count
show. -/
theorem claim_C7_cex :
    (extract_from_ftp_with_7z worldC7 [] "out").tables =
      [("202401_a.csv", 1), ("202401_a.csv", 2)] ∧
    assignCount "202401_a.csv" (extract_from_ftp_with_7z worldC7 [] "out").events = 2 :=
  ⟨by decide, by decide⟩

/-- C7 amended: a table key is assigned at most once per qualifying member
occurrence - one member step adds at most one assignment of any key - but
two archives of the same month containing equally named members assign the
same key once each, and the dictionary view keeps the last assignment. -/
theorem claim_C7 :
    (∀ (k od mf : String) (s : RunState) (m : MemberW),
      assignCount k (processMember od mf s m).events ≤ assignCount k s.events + 1) ∧
    dictLookup (extract_from_ftp_with_7z worldC7 [] "out").tables "202401_a.csv" =
      some 2 :=
  ⟨fun k od mf s m => processMember_assign_le k od mf s m, by decide⟩

theorem claim_C7_witness :
    assignCount "202401_a.csv"
      (processMember "out" "202401" (initState []) (memLatin1 1)).events ≤
    assignCount "202401_a.csv" (initState []).events + 1 :=
  claim_C7.1 "202401_a.csv" "out" "202401" (initState []) (memLatin1 1)

/-- C8: an FTP error after login and base-path navigation does not raise to
the caller: an aborted state freezes every remaining year, month and
archive step, every accumulating field of a step is append-only so that
everything accumulated up to the failure is returned, already committed
keys stay in the ledger file, and in a concrete run whose second month
fails at a download the function still returns the first month's table,
saved file and ledger line. -/
theorem claim_C8 (w : World) (ledger0 : List String) (od k mf y : String)
    (s : RunState) (yw : YearW) (mo : MonthW) (a : ArchiveW) :
    (s.aborted = true → processYear od s yw = s ∧ processMonth od y s mo = s ∧
      processArchive k mf od s a = s) ∧
    (∃ d, (processYear od s yw).tables = s.tables ++ d) ∧
    (∃ d, (processYear od s yw).saved = s.saved ++ d) ∧
    (∃ d, (processYear od s yw).ledgerFile = s.ledgerFile ++ d) ∧
    (∃ d, (extract_from_ftp_with_7z w ledger0 od).ledgerFile = ledger0 ++ d) ∧
    ((extract_from_ftp_with_7z worldC8 [] "out").aborted = true ∧
      (extract_from_ftp_with_7z worldC8 [] "out").tables = [("202401_a.csv", 1)] ∧
      (extract_from_ftp_with_7z worldC8 [] "out").saved = ["out/202401_a.csv"] ∧
      (extract_from_ftp_with_7z worldC8 [] "out").ledgerFile = ["2024/202401"]) := by
  refine ⟨?_, ?_, ?_, ?_, ?_, by decide, by decide, by decide, by decide⟩
  · intro h
    exact ⟨(processYear_delta od s yw).2.2.1 h, (processMonth_delta od y s mo).2.2.1 h,
      (processArchive_delta k mf od s a).2.2.1 h⟩
  · exact (processYear_delta od s yw).2.2.2.1
  · exact (processYear_delta od s yw).2.2.2.2.1
  · exact (processYear_delta od s yw).2.1
  · exact (run_delta w ledger0 od).2.1

theorem claim_C8_witness :
    stateAborted.aborted = true ∧ processYear "out" stateAborted yearC8 = stateAborted := by
  have h := (claim_C8 worldC8 [] "out" "k" "mf" "2024" stateAborted yearC8
    (okMonth "202401" []) { name := "x.7z", fetchOk := true, extractOut := none }).1 rfl
  exact ⟨rfl, h.1⟩

/-- C9: when the copy of an extracted csv/txt member into the durable
store fails, the save helper returns none and the member step leaves the
state untouched: the member is not added to the saved-files list and no
table is assigned even when every decode attempt of its content would
succeed - the decoder is never consulted. -/
theorem claim_C9 (od mf : String) (s : RunState) (m : MemberW)
    (h : m.copyOk = false) :
    save_extracted_file m.copyOk m.name mf od = none ∧
    processMember od mf s m = s := by
  have hsave : save_extracted_file m.copyOk m.name mf od = none := by
    unfold save_extracted_file
    rw [h]
    simp
  refine ⟨hsave, ?_⟩
  unfold processMember
  split
  · simp only [hsave]
  · rfl

theorem claim_C9_witness :
    memC9.copyOk = false ∧ memC9.parse (";", "latin1") = some 7 ∧
    processMember "out" "202401" (initState []) memC9 = initState [] := by
  have h := claim_C9 "out" "202401" (initState []) memC9 rfl
  exact ⟨rfl, rfl, h.2⟩

/-- C10: at every point of every run, each key of the in-memory table
dictionary corresponds to a file successfully copied into the durable
store: joining the output directory with the key gives a path in the
saved-files list; the converse fails, as a run whose single member decodes
under no attempt leaves its saved file in place with no table at all. -/
theorem claim_C10 :
    (∀ (w : World) (ledger0 : List String) (od : String),
      ∀ p ∈ (extract_from_ftp_with_7z w ledger0 od).tables,
        pathJoin od p.1 ∈ (extract_from_ftp_with_7z w ledger0 od).saved) ∧
    ((extract_from_ftp_with_7z worldC10 [] "out").saved = ["out/202401_bad.csv"] ∧
      (extract_from_ftp_with_7z worldC10 [] "out").tables = []) :=
  ⟨fun w l0 od p hp => run_pres_T w l0 od p hp, by decide, by decide⟩

theorem claim_C10_witness :
    ("202401_a.csv", 1) ∈ (extract_from_ftp_with_7z worldC10b [] "out").tables ∧
    pathJoin "out" "202401_a.csv" ∈ (extract_from_ftp_with_7z worldC10b [] "out").saved := by
  have h := claim_C10.1 worldC10b [] "out" ("202401_a.csv", 1) (by decide)
  exact ⟨by decide, h⟩

end Extrator
